import Mathlib

set_option maxHeartbeats 2000000
set_option linter.unusedSectionVars false

/-!
Shallow embedding of the p3-utils STARK machine core: virtual pair columns,
interactions, the permutation-argument trace generator and constraint
evaluator, the prover/verifier constraint folders, the verifier's quotient
recomposition, and the machine trace loading/committing pipeline.
-/

namespace P3

/-- The modulus 7 used for concrete sample computations is prime. -/
instance fact_prime_seven : Fact (Nat.Prime 7) := ⟨by norm_num⟩

/-! ### Virtual pair columns (p3_air dependency, affine forms over trace cells) -/

/-- One column selector of a `VirtualPairCol`: either a preprocessed-trace
column or a main-trace column. -/
inductive PairCol where
  | preprocessed (idx : Nat)
  | main (idx : Nat)
  deriving DecidableEq, Repr

/-- Read the selected cell out of the given preprocessed/main row slices. -/
def PairCol.get {F : Type} [Zero F] (c : PairCol) (preprocessed_row main_row : List F) : F :=
  match c with
  | .preprocessed i => preprocessed_row.getD i 0
  | .main i => main_row.getD i 0

/-- An affine combination over preprocessed and main cells with a constant
term: `constant + sum of weight * cell`. -/
structure VirtualPairCol (F : Type) where
  column_weights : List (PairCol × F)
  constant : F

/-- Evaluate the affine form on a preprocessed row and a main row. -/
def VirtualPairCol.apply {F : Type} [CommRing F] (col : VirtualPairCol F)
    (preprocessed_row main_row : List F) : F :=
  col.column_weights.foldl
    (fun acc cw => acc + cw.1.get preprocessed_row main_row * cw.2) col.constant

/-! ### Interactions (src/src/chip.rs) -/

/-- Whether a bus interaction is a send or a receive. -/
inductive InteractionType where
  | send
  | receive
  deriving DecidableEq, Repr

/-- A bus message: field expressions, a multiplicity expression and a bus id. -/
structure Interaction (F : Type) where
  fields : List (VirtualPairCol F)
  count : VirtualPairCol F
  argument_index : Nat

/-! ### Batched inverse leaving zeros (src/rap/src/util.rs) -/

/-- Model of the external `p3_field::batch_multiplicative_inverse`, whose
contract is the elementwise multiplicative inverse of a vector of nonzero
field elements. -/
def batch_multiplicative_inverse {F : Type} [Field F] (values : List F) : List F :=
  values.map (fun x => x⁻¹)

/-- The index-tracking collection loop of
`batch_multiplicative_inverse_allowing_zero`: walk the vector with a running
position, keeping each nonzero value together with its index. -/
def collect_nonzero {F : Type} [Field F] [DecidableEq F] :
    Nat → List F → List F × List Nat
  | _, [] => ([], [])
  | i, v :: vs =>
    let rest := collect_nonzero (i + 1) vs
    if v = 0 then rest else (v :: rest.1, i :: rest.2)

/-- `batch_multiplicative_inverse_allowing_zero` from `src/rap/src/util.rs`:
extract the nonzero values with their indices, batch-invert them, and scatter
the inverses back over a copy of the input. -/
def batch_multiplicative_inverse_allowing_zero {F : Type} [Field F] [DecidableEq F]
    (values : List F) : List F :=
  let collected := collect_nonzero 0 values
  let inverse_nonzero_values := batch_multiplicative_inverse collected.1
  (collected.2.zip inverse_nonzero_values).foldl
    (fun result p => result.set p.1 p.2) values

/-! ### Permutation trace generation (src/src/chip.rs) -/

/-- `generate_rlc_elements` from `src/src/chip.rs`: the powers of the first
random element, skipping the zeroth power, one for each bus id up to the largest
`argument_index` appearing in the chip's interactions. -/
def generate_rlc_elements {F EF : Type} [Field F] [Field EF] [Algebra F EF]
    (interactions : List (Interaction F × InteractionType))
    (random_elements : List EF) : List EF :=
  (List.range (((interactions.map (fun p => p.1.argument_index)).foldr max 0) + 1)).map
    (fun i => (random_elements.getD 0 0) ^ (i + 1))

/-- `reduce_row` from `src/src/chip.rs`: fold the interaction's field columns
with the powers of `beta`, then add the bus tag `alpha`. -/
def reduce_row {F EF : Type} [Field F] [Field EF] [Algebra F EF]
    (main_row preprocessed_row : List F) (fields : List (VirtualPairCol F))
    (alpha : EF) (beta : EF) : EF :=
  (fields.enum.foldl (fun rlc jf =>
    rlc + beta ^ jf.1 * algebraMap F EF (jf.2.apply preprocessed_row main_row)) 0) + alpha

/-- The preprocessed row slice used at row `n`: the chip's preprocessed row
when a preprocessed trace is present, otherwise the empty slice. -/
def preprocessed_row_at {F : Type} (preprocessed : Option (List (List F))) (n : Nat) :
    List F :=
  match preprocessed with
  | some p => p.getD n []
  | none => []

/-- The rows of the permutation trace before batch inversion: entry `m` of
row `n` holds `reduce_row` of interaction `m` at row `n`, and the trailing
running-sum column is initialised to zero. -/
def permutation_pre_inverse_rows {F EF : Type} [Field F] [Field EF] [Algebra F EF]
    (interactions : List (Interaction F × InteractionType))
    (preprocessed : Option (List (List F))) (main : List (List F))
    (random_elements : List EF) : List (List EF) :=
  let alphas := generate_rlc_elements interactions random_elements
  main.enum.map (fun nrow =>
    (interactions.map (fun p =>
      reduce_row nrow.2 (preprocessed_row_at preprocessed nrow.1) p.1.fields
        (alphas.getD p.1.argument_index 0) (random_elements.getD 1 0))) ++ [0])

/-- Regroup a flat value vector into rows of width `k`, as
`RowMajorMatrix::new` / `chunks_exact` do; a trailing remainder shorter than
`k` is dropped. -/
def chunks_exact {α : Type} (k : Nat) (l : List α) : List (List α) :=
  if _h : 0 < k ∧ k ≤ l.length then
    l.take k :: chunks_exact k (l.drop k)
  else []
termination_by l.length
decreasing_by
  simp only [List.length_drop]
  omega

/-- The multiplicity of an interaction at a row: its `count` column applied
to the preprocessed and main row slices. -/
def interaction_mult {F : Type} [CommRing F] (interaction : Interaction F)
    (preprocessed_row main_row : List F) : F :=
  interaction.count.apply preprocessed_row main_row

/-- One row's contribution to the running sum: over all interactions, add the
reciprocal entry times the multiplicity for a send, subtract it for a
receive. -/
def phi_row_contribution {F EF : Type} [Field F] [Field EF] [Algebra F EF]
    (interactions : List (Interaction F × InteractionType))
    (preprocessed : Option (List (List F))) (main : List (List F))
    (recip_rows : List (List EF)) (n : Nat) : EF :=
  interactions.enum.foldl (fun acc mp =>
    let mult := interaction_mult mp.2.1 (preprocessed_row_at preprocessed n) (main.getD n [])
    match mp.2.2 with
    | .send => acc + (recip_rows.getD n []).getD mp.1 0 * algebraMap F EF mult
    | .receive => acc - (recip_rows.getD n []).getD mp.1 0 * algebraMap F EF mult) 0

/-- The sequential running sum over the inverted reciprocal rows:
`phi 0 = contribution 0` and `phi n = phi (n-1) + contribution n`. -/
def phi_running {F EF : Type} [Field F] [Field EF] [Algebra F EF]
    (interactions : List (Interaction F × InteractionType))
    (preprocessed : Option (List (List F))) (main : List (List F))
    (recip_rows : List (List EF)) : Nat → EF
  | 0 => phi_row_contribution interactions preprocessed main recip_rows 0
  | n + 1 => phi_running interactions preprocessed main recip_rows n
      + phi_row_contribution interactions preprocessed main recip_rows (n + 1)

/-- `generate_permutation_trace` from `src/src/chip.rs`: build the
pre-inversion rows, flatten them, batch-invert allowing zeros, regroup into
rows of width `interactions.length + 1`, and overwrite each row's last entry
with the running sum. -/
def generate_permutation_trace {F EF : Type} [Field F] [Field EF] [Algebra F EF]
    [DecidableEq EF]
    (interactions : List (Interaction F × InteractionType))
    (preprocessed : Option (List (List F))) (main : List (List F))
    (random_elements : List EF) : List (List EF) :=
  let perm_width := interactions.length + 1
  let perm_values := batch_multiplicative_inverse_allowing_zero
    ((permutation_pre_inverse_rows interactions preprocessed main random_elements).flatten)
  let perm := chunks_exact perm_width perm_values
  perm.enum.map (fun nrow =>
    nrow.2.set (nrow.2.length - 1)
      (phi_running interactions preprocessed main perm nrow.1))

/-- The cumulative sum as the machine pipeline reads it off a permutation
matrix (`src/machine/src/trace.rs`, `generate_permutation`): the last entry
of the last row. -/
def pipeline_cumulative_sum {EF : Type} (perm : List (List EF)) : Option EF :=
  (perm.getD (perm.length - 1) []).getLast?

/-- The sign of an interaction in the running sum: `+1` for a send, `-1` for
a receive. -/
def interaction_sign {EF : Type} [Field EF] (t : InteractionType) : EF :=
  match t with
  | .send => 1
  | .receive => -1

/-- The pre-inversion value the trace generator computes for row `n` and
interaction `m`. -/
def pre_inversion_value {F EF : Type} [Field F] [Field EF] [Algebra F EF]
    (interactions : List (Interaction F × InteractionType))
    (preprocessed : Option (List (List F))) (main : List (List F))
    (random_elements : List EF) (n m : Nat) : EF :=
  ((permutation_pre_inverse_rows interactions preprocessed main
      random_elements).getD n []).getD m 0

/-! ### Constraint folders (src/machine/src/folder.rs) -/

/-- `ProverConstraintFolder` from `src/machine/src/folder.rs`. Packed SIMD
values are modelled by their underlying field values: base-field (packed)
expressions live in `F`, extension (packed challenge) expressions in `EF`. -/
structure ProverConstraintFolder (F EF : Type) where
  preprocessed : List (List F)
  main : List (List F)
  perm : List (List EF)
  perm_challenges : List EF
  public_values : List F
  cumulative_sum : EF
  is_first_row : F
  is_last_row : F
  is_transition : F
  alpha : EF
  accumulator : EF

/-- Prover folder `assert_zero`: fold a base-field constraint into the
accumulator: `accumulator * alpha + x`. -/
def ProverConstraintFolder.assert_zero {F EF : Type} [Field F] [Field EF] [Algebra F EF]
    (f : ProverConstraintFolder F EF) (x : F) : ProverConstraintFolder F EF :=
  { f with accumulator := f.accumulator * f.alpha + algebraMap F EF x }

/-- Prover folder `assert_zero_ext`: fold an extension-field constraint into
the accumulator: `accumulator * alpha + x`. -/
def ProverConstraintFolder.assert_zero_ext {F EF : Type} [Field F] [Field EF] [Algebra F EF]
    (f : ProverConstraintFolder F EF) (x : EF) : ProverConstraintFolder F EF :=
  { f with accumulator := f.accumulator * f.alpha + x }

/-- Prover folder `is_transition_window`: the two-row transition selector for
window size 2, a panic (modelled as `none`) for every other size. -/
def ProverConstraintFolder.is_transition_window {F EF : Type}
    (f : ProverConstraintFolder F EF) (size : Nat) : Option F :=
  if size = 2 then some f.is_transition else none

/-- `VerifierConstraintFolder` from `src/machine/src/folder.rs`: point
evaluation at the challenge; all expressions are extension-field scalars. The
two-row matrix views are kept as explicit local/next rows. -/
structure VerifierConstraintFolder (F EF : Type) where
  preprocessed_local : List EF
  preprocessed_next : List EF
  main_local : List EF
  main_next : List EF
  perm_local : List EF
  perm_next : List EF
  perm_challenges : List EF
  public_values : List F
  is_first_row : EF
  is_last_row : EF
  is_transition : EF
  alpha : EF
  accumulator : EF

/-- Verifier folder `assert_zero`: `accumulator * alpha + x`. -/
def VerifierConstraintFolder.assert_zero {F EF : Type} [Field EF]
    (f : VerifierConstraintFolder F EF) (x : EF) : VerifierConstraintFolder F EF :=
  { f with accumulator := f.accumulator * f.alpha + x }

/-- Verifier folder `assert_zero_ext`: `accumulator * alpha + x`. -/
def VerifierConstraintFolder.assert_zero_ext {F EF : Type} [Field EF]
    (f : VerifierConstraintFolder F EF) (x : EF) : VerifierConstraintFolder F EF :=
  { f with accumulator := f.accumulator * f.alpha + x }

/-- Verifier folder `is_transition_window`: the transition selector for
window size 2, a panic (modelled as `none`) for every other size. -/
def VerifierConstraintFolder.is_transition_window {F EF : Type}
    (f : VerifierConstraintFolder F EF) (size : Nat) : Option EF :=
  if size = 2 then some f.is_transition else none

/-- Run a sequence of extension-field constraint values through the prover
folder's `assert_zero_ext`. -/
def ProverConstraintFolder.fold_all {F EF : Type} [Field F] [Field EF] [Algebra F EF]
    (f : ProverConstraintFolder F EF) (cs : List EF) : ProverConstraintFolder F EF :=
  cs.foldl (fun acc c => acc.assert_zero_ext c) f

/-- Run a sequence of extension-field constraint values through the verifier
folder's `assert_zero_ext`. -/
def VerifierConstraintFolder.fold_all {F EF : Type} [Field EF]
    (f : VerifierConstraintFolder F EF) (cs : List EF) : VerifierConstraintFolder F EF :=
  cs.foldl (fun acc c => acc.assert_zero_ext c) f

/-! ### Permutation constraint evaluation (src/src/chip.rs) -/

/-- The row view an abstract constraint builder exposes to
`eval_permutation_constraints`: concrete local/next row slices, challenge
values and selector values, as in the debug instantiation where base-field
expressions evaluate in `F` and extension expressions in `EF`. -/
structure RapBuilderState (F EF : Type) where
  preprocessed_local : List F
  preprocessed_next : List F
  main_local : List F
  main_next : List F
  perm_local : List EF
  perm_next : List EF
  perm_challenges : List EF
  is_first_row : F
  is_last_row : F
  is_transition : F

/-- `eval_permutation_constraints` from `src/src/chip.rs`, recorded as the
ordered list of values passed to `assert_zero_ext`. `assert_one_ext x`
asserts `x - 1`; `when(c).assert_eq_ext(a, b)` asserts `(a - b) * c`. The
interaction loop emits one reciprocal constraint per interaction while
accumulating `phi_0` (first-row sum) and `rhs` (transition sum); the three
selector-guarded running-sum constraints follow. -/
def eval_permutation_constraints {F EF : Type} [Field F] [Field EF] [Algebra F EF]
    (interactions : List (Interaction F × InteractionType))
    (b : RapBuilderState F EF) (cumulative_sum : EF) : List EF :=
  let rand_elems := b.perm_challenges
  let alphas := generate_rlc_elements interactions rand_elems
  let beta := rand_elems.getD 1 0
  let perm_width := b.perm_local.length
  let phi_local := b.perm_local.getD (perm_width - 1) 0
  let phi_next := b.perm_next.getD (perm_width - 1) 0
  let lhs := phi_next - phi_local
  let result := interactions.enum.foldl (fun (acc : List EF × EF × EF) mp =>
    let rlc := (mp.2.1.fields.enum.foldl (fun rlc jf =>
        rlc + beta ^ jf.1 * algebraMap F EF (jf.2.apply b.preprocessed_local b.main_local))
        0) + alphas.getD mp.2.1.argument_index 0
    let asserted := acc.1 ++ [rlc * b.perm_local.getD mp.1 0 - 1]
    let mult_local := algebraMap F EF (mp.2.1.count.apply b.preprocessed_local b.main_local)
    let mult_next := algebraMap F EF (mp.2.1.count.apply b.preprocessed_next b.main_next)
    match mp.2.2 with
    | .send => (asserted, acc.2.1 + b.perm_local.getD mp.1 0 * mult_local,
        acc.2.2 + b.perm_next.getD mp.1 0 * mult_next)
    | .receive => (asserted, acc.2.1 - b.perm_local.getD mp.1 0 * mult_local,
        acc.2.2 - b.perm_next.getD mp.1 0 * mult_next)) ([], 0, 0)
  let phi_0 := result.2.1
  let rhs := result.2.2
  result.1 ++
    [(lhs - rhs) * algebraMap F EF b.is_transition,
     (b.perm_local.getLastD 0 - phi_0) * algebraMap F EF b.is_first_row,
     (b.perm_local.getLastD 0 - cumulative_sum) * algebraMap F EF b.is_last_row]

/-! ### Verifier constraint check (src/machine/src/verify.rs) -/

/-- Modelled from the spec: the verifier error taxonomy of section 7; the
repository's `machine/src/error.rs` is not among the provided sources. -/
inductive VerificationError where
  | InvalidProofShape
  | InvalidOpeningArgument
  | OodEvaluationMismatch
  | NonZeroCumulativeSum (bus_id : Nat)
  | MissingProofData
  | DegreeOutOfBounds
  deriving DecidableEq, Repr

/-- Modelled from the spec: one matrix's opened values at the out-of-domain
point and its shift (`{local, next}`), as laid out in the proof wire format. -/
structure AdjacentOpenedValues (EF : Type) where
  local_values : List EF
  next_values : List EF

/-- Modelled from the spec: the opened values of one chip, quotient chunks
flattened to `quotient_degree x D` extension values. -/
structure OpenedValues (EF : Type) where
  preprocessed : Option (AdjacentOpenedValues EF)
  main : Option (AdjacentOpenedValues EF)
  permutation : Option (AdjacentOpenedValues EF)
  quotient_chunks : Option (List (List EF))

/-- The Lagrange selector values a PCS domain supplies at an evaluation
point. -/
structure LagrangeSelectors (EF : Type) where
  is_first_row : EF
  is_last_row : EF
  is_transition : EF
  inv_zeroifier : EF

/-- The slice of the PCS `Domain` interface used by `verify_constraints`:
the vanishing-polynomial evaluation, the first point, and the selectors at a
point. -/
structure DomainModel (EF : Type) where
  zp_at_point : EF → EF
  first_point : EF
  selectors_at_point : EF → LagrangeSelectors EF

/-- The Lagrange-like chunk weights of `verify_constraints`:
`zps[i] = prod over j.ne.i of Z_Dj(zeta) * Z_Dj(first_point(D_i))⁻¹`. -/
def quotient_zps {EF : Type} [Field EF] (qc_domains : List (DomainModel EF))
    (zeta : EF) : List EF :=
  qc_domains.enum.map (fun idom =>
    ((qc_domains.enum.filter (fun p => p.1 != idom.1)).map (fun other =>
      other.2.zp_at_point zeta * (other.2.zp_at_point idom.2.first_point)⁻¹)).prod)

/-- The quotient value recomposed from the opened chunks:
`sum over chunks i, sum over e, zps[i] * monomial(e) * chunk[i][e]`. -/
def recomposed_quotient {EF : Type} [Field EF] (zps : List EF)
    (monomial : Nat → EF) (chunks : List (List EF)) : EF :=
  (chunks.enum.map (fun ch =>
    (ch.2.enum.map (fun ec => zps.getD ch.1 0 * monomial ec.1 * ec.2)).sum)).sum

/-- `unflatten` from `src/machine/src/verify.rs`: regroup every `D`
consecutive opened base values and recombine them as
`sum over e, monomial(e) * c_e`. -/
def unflatten {EF : Type} [Field EF] (D : Nat) (monomial : Nat → EF)
    (v : List EF) : List EF :=
  (chunks_exact D v).map (fun chunk =>
    (chunk.enum.map (fun ec => monomial ec.1 * ec.2)).sum)

/-- Modelled from the spec: the verifier-side folder of
`p3_air_util::folders::rap` as constructed by `verify_constraints` (the
air-util folder sources are not under the provided `src/`); it carries the
chip's cumulative sum and folds with the same recurrence as the folders of
`src/machine/src/folder.rs`. -/
structure RapVerifierConstraintFolder (F EF : Type) where
  preprocessed_local : List EF
  preprocessed_next : List EF
  main_local : List EF
  main_next : List EF
  perm_local : List EF
  perm_next : List EF
  perm_challenges : List EF
  public_values : List F
  cumulative_sum : EF
  is_first_row : EF
  is_last_row : EF
  is_transition : EF
  alpha : EF
  accumulator : EF

/-- The folder `verify_constraints` builds before calling the chip's
`eval_all`: opened rows (permutation rows unflattened), selectors at zeta,
zero accumulator. -/
def build_rap_verifier_folder {F EF : Type} [Field EF] (D : Nat) (monomial : Nat → EF)
    (opened_values : OpenedValues EF) (sels : LagrangeSelectors EF)
    (permutation_challenges : List EF) (cumulative_sum : Option EF)
    (public_values : List F) (alpha : EF) : RapVerifierConstraintFolder F EF :=
  let preprocessed := match opened_values.preprocessed with
    | some ov => (ov.local_values, ov.next_values)
    | none => ([], [])
  let main := match opened_values.main with
    | some ov => (ov.local_values, ov.next_values)
    | none => ([], [])
  let perm := match opened_values.permutation with
    | some ov => (unflatten D monomial ov.local_values, unflatten D monomial ov.next_values)
    | none => ([], [])
  { preprocessed_local := preprocessed.1
    preprocessed_next := preprocessed.2
    main_local := main.1
    main_next := main.2
    perm_local := perm.1
    perm_next := perm.2
    perm_challenges := permutation_challenges
    public_values := public_values
    cumulative_sum := cumulative_sum.getD 0
    is_first_row := sels.is_first_row
    is_last_row := sels.is_last_row
    is_transition := sels.is_transition
    alpha := alpha
    accumulator := 0 }

/-- `verify_constraints` from `src/machine/src/verify.rs`, parameterised by
the chip's `eval_all` as a folder transformer. `none` models the panic on a
proof with no opened quotient chunks; otherwise the result is `Ok` when the
folded constraints times the inverse zeroifier equal the recomposed
quotient, and `OodEvaluationMismatch` otherwise. -/
def verify_constraints {F EF : Type} [Field EF] [DecidableEq EF]
    (air_eval : RapVerifierConstraintFolder F EF → RapVerifierConstraintFolder F EF)
    (D : Nat) (monomial : Nat → EF) (opened_values : OpenedValues EF)
    (main_domain : DomainModel EF) (qc_domains : List (DomainModel EF))
    (zeta alpha : EF) (permutation_challenges : List EF)
    (cumulative_sum : Option EF) (public_values : List F) :
    Option (Except VerificationError Unit) :=
  let zps := quotient_zps qc_domains zeta
  match opened_values.quotient_chunks with
  | none => none
  | some chunks =>
    let quotient := recomposed_quotient zps monomial chunks
    let sels := main_domain.selectors_at_point zeta
    let folder : RapVerifierConstraintFolder F EF :=
      build_rap_verifier_folder D monomial opened_values sels permutation_challenges
        cumulative_sum public_values alpha
    let folded_constraints := (air_eval folder).accumulator
    some (if folded_constraints * sels.inv_zeroifier ≠ quotient then
      Except.error VerificationError.OodEvaluationMismatch
    else
      Except.ok ())

/-! ### Extension flattening (src/machine/src/trace.rs and verify.rs) -/

/-- `Trace::flatten_to_base` from `src/machine/src/trace.rs` on one matrix
row: each extension element is replaced by its `D` base-field coefficients
(the external `as_base_slice`, passed in as a parameter). -/
def flatten_to_base {F EF : Type} (as_base_slice : EF → List F) (row : List EF) :
    List F :=
  (row.map as_base_slice).flatten

/-! ### Cumulative sum checks (src/air-util) -/

/-- `BTreeMap::entry(..).and_modify(|c| c += v).or_insert(v)` on an
association list: add into an existing key or append the new key. -/
def update_assoc {EF : Type} [Field EF] (sums : List (Nat × EF)) (k : Nat) (v : EF) :
    List (Nat × EF) :=
  if sums.any (fun p => p.1 == k) then
    sums.map (fun p => if p.1 == k then (p.1, p.2 + v) else p)
  else
    sums ++ [(k, v)]

/-- The shared row loop of both `check_cumulative_sums` versions for one
chip's interaction `j`: fold every permutation row's signed
`perm_row[j] * mult` into the per-bus sums. -/
def chip_interaction_sums {F EF : Type} [Field F] [Field EF] [Algebra F EF]
    (interaction : Interaction F) (ty : InteractionType) (j : Nat)
    (preprocessed_i main_i : Option (List (List F))) (p : List (List EF))
    (sums : List (Nat × EF)) : List (Nat × EF) :=
  p.enum.foldl (fun sums nrow =>
    let preprocessed_row := match preprocessed_i with
      | some pp => pp.getD nrow.1 []
      | none => []
    let main_row := match main_i with
      | some mm => mm.getD nrow.1 []
      | none => []
    let mult := interaction.count.apply preprocessed_row main_row
    let val := match ty with
      | .send => nrow.2.getD j 0 * algebraMap F EF mult
      | .receive => -(nrow.2.getD j 0 * algebraMap F EF mult)
    update_assoc sums interaction.argument_index val) sums

/-- The final total of both `check_cumulative_sums` versions: sum over the
present permutation matrices of the last entry of the last row. -/
def total_cumulative_sum {EF : Type} [Field EF]
    (permutation : List (Option (List (List EF)))) : EF :=
  (permutation.filterMap id).foldl (fun acc p =>
    acc + (p.getD (p.length - 1) []).getLastD 0) 0

/-- `check_cumulative_sums` from `src/air-util/src/check_constraints.rs`:
the bus loop reads `permutation[i].unwrap()` for every interaction, so a
chip that has at least one interaction but no permutation trace panics
(modelled as `none`); otherwise the per-bus sums and the global total are
returned. -/
def check_cumulative_sums_old {F EF : Type} [Field F] [Field EF] [Algebra F EF]
    (airs : List (List (Interaction F × InteractionType)))
    (preprocessed main : List (Option (List (List F))))
    (permutation : List (Option (List (List EF)))) :
    Option (List (Nat × EF) × EF) :=
  let sums := airs.enum.foldl (fun osums ia =>
    ia.2.enum.foldl (fun osums ji =>
      osums.bind (fun sums =>
        (permutation.getD ia.1 none).map (fun p =>
          chip_interaction_sums ji.2.1 ji.2.2 ji.1
            (preprocessed.getD ia.1 none) (main.getD ia.1 none) p sums)))
      osums) (some [])
  sums.map (fun s => (s, total_cumulative_sum permutation))

/-- `check_cumulative_sums` from `src/air-util/src/debug/rap/check.rs`: the
bus loop is guarded by `if let Some(permutation)`, so a chip without a
permutation trace contributes nothing and the check completes. -/
def check_cumulative_sums_rap {F EF : Type} [Field F] [Field EF] [Algebra F EF]
    (airs : List (List (Interaction F × InteractionType)))
    (preprocessed main : List (Option (List (List F))))
    (permutation : List (Option (List (List EF)))) :
    List (Nat × EF) × EF :=
  let sums := airs.enum.foldl (fun sums ia =>
    ia.2.enum.foldl (fun sums ji =>
      match permutation.getD ia.1 none with
      | none => sums
      | some p =>
        chip_interaction_sums ji.2.1 ji.2.2 ji.1
          (preprocessed.getD ia.1 none) (main.getD ia.1 none) p sums)
      sums) []
  (sums, total_cumulative_sum permutation)

/-! ### Trace loading and committing (src/machine/src/trace.rs) -/

/-- A committed trace: a value matrix together with its PCS natural domain. -/
structure Trace (M D : Type) where
  value : M
  domain : D

/-- A loaded trace with its per-round opening index. -/
structure IndexedTrace (M D : Type) where
  trace : Trace M D
  opening_index : Nat

/-- The scan inside `load_traces`: a `Some` trace of positive height is
wrapped with the PCS natural domain for its degree and the next opening
index; `None` and height-0 traces load as `None` without consuming an
index. -/
def load_traces_aux {M D : Type} (natural_domain_for_degree : Nat → D)
    (height : M → Nat) : Nat → List (Option M) → List (Option (IndexedTrace M D))
  | _, [] => []
  | count, none :: rest => none :: load_traces_aux natural_domain_for_degree height count rest
  | count, some t :: rest =>
    let degree := height t
    if 0 < degree then
      some ⟨⟨t, natural_domain_for_degree degree⟩, count⟩ ::
        load_traces_aux natural_domain_for_degree height (count + 1) rest
    else
      none :: load_traces_aux natural_domain_for_degree height count rest

/-- `load_traces` from `src/machine/src/trace.rs`: the counting scan started
at zero. -/
def load_traces {M D : Type} (natural_domain_for_degree : Nat → D)
    (height : M → Nat) (traces : List (Option M)) : List (Option (IndexedTrace M D)) :=
  load_traces_aux natural_domain_for_degree height 0 traces

/-- `commit_traces` from `src/machine/src/trace.rs`: commit the
(domain, value) pairs in one batch when there is at least one, otherwise
return `(None, None)`. -/
def commit_traces {M D Com PData : Type} (commit : List (D × M) → Com × PData)
    (traces : List (Trace M D)) : Option Com × Option PData :=
  let domains_and_traces := traces.map (fun t => (t.domain, t.value))
  if domains_and_traces.isEmpty then
    (none, none)
  else
    let cd := commit domains_and_traces
    (some cd.1, some cd.2)

/-- One `commit_*` stage of the pipeline (`commit_preprocessed`,
`commit_main`, ...): flat-map the loaded slots to their traces and commit
them in one batch. -/
def commit_stage {M D Com PData : Type} (commit : List (D × M) → Com × PData)
    (loaded : List (Option (IndexedTrace M D))) : Option Com × Option PData :=
  commit_traces commit (loaded.filterMap (fun o => o.map (fun it => it.trace)))

/-- The number of non-empty traces before position `i`: the opening index
`load_traces` hands to a non-empty trace at position `i`. -/
def nonempty_count_before {M : Type} (height : M → Nat) (traces : List (Option M))
    (i : Nat) : Nat :=
  ((traces.take i).filter (fun o => match o with
    | some t => decide (0 < height t)
    | none => false)).length

/-! ### Concrete instances used to evaluate the development on sample data -/

/-- A concrete one-interaction chip over `ZMod 7`: one send on bus 0 whose
single field is the constant 1 and whose count is the constant 1. -/
def sample_interactions : List (Interaction (ZMod 7) × InteractionType) :=
  [({ fields := [{ column_weights := [], constant := 1 }],
      count := { column_weights := [], constant := 1 },
      argument_index := 0 }, InteractionType.send)]

/-- A concrete one-row main trace over `ZMod 7`. -/
def sample_main : List (List (ZMod 7)) := [[0]]

/-- Concrete opened values over `ZMod 7` with a single one-element quotient
chunk. -/
def sample_opened_values : OpenedValues (ZMod 7) :=
  { preprocessed := none
    main := none
    permutation := none
    quotient_chunks := some [[1]] }

/-- A concrete PCS domain over `ZMod 7` with trivial vanishing polynomial
and selectors. -/
def sample_domain : DomainModel (ZMod 7) :=
  { zp_at_point := fun _ => 1
    first_point := 1
    selectors_at_point := fun _ =>
      { is_first_row := 1, is_last_row := 0, is_transition := 1, inv_zeroifier := 1 } }

/-- A concrete `eval_all` for the verifier folder: fold the single constraint
value 1 into the accumulator. -/
def sample_air_eval :
    RapVerifierConstraintFolder (ZMod 7) (ZMod 7) →
      RapVerifierConstraintFolder (ZMod 7) (ZMod 7) :=
  fun f => { f with accumulator := f.accumulator * f.alpha + 1 }

/-- A concrete prover folder over `ZMod 7` used to evaluate the builder
interface on sample data. -/
def sample_prover_folder : ProverConstraintFolder (ZMod 7) (ZMod 7) :=
  { preprocessed := []
    main := [[1, 2]]
    perm := []
    perm_challenges := [2, 3]
    public_values := []
    cumulative_sum := 0
    is_first_row := 1
    is_last_row := 0
    is_transition := 1
    alpha := 5
    accumulator := 0 }

/-- A concrete verifier folder over `ZMod 7` used to evaluate the builder
interface on sample data. -/
def sample_verifier_folder : VerifierConstraintFolder (ZMod 7) (ZMod 7) :=
  { preprocessed_local := []
    preprocessed_next := []
    main_local := [1, 2]
    main_next := [3, 4]
    perm_local := []
    perm_next := []
    perm_challenges := [2, 3]
    public_values := []
    is_first_row := 1
    is_last_row := 0
    is_transition := 1
    alpha := 5
    accumulator := 0 }

end P3

namespace P3

theorem foldl_set_shift {α : Type} (a : α) (l : List α) (ups : List (Nat × α)) :
    (ups.map (fun p => (p.1 + 1, p.2))).foldl (fun r p => r.set p.1 p.2) (a :: l)
      = a :: ups.foldl (fun r p => r.set p.1 p.2) l := by
  induction ups generalizing a l with
  | nil => rfl
  | cons u us ih =>
    simp only [List.map_cons, List.foldl_cons, List.set]
    exact ih a (l.set u.1 u.2)

theorem zip_map_add_one {α : Type} (idx : List Nat) (w : List α) :
    (idx.map (· + 1)).zip w = (idx.zip w).map (fun p => (p.1 + 1, p.2)) := by
  induction idx generalizing w with
  | nil => rfl
  | cons i is ih =>
    cases w with
    | nil => rfl
    | cons x xs => simp [ih]

section Lemmas

variable {F : Type} [Field F] [DecidableEq F]

theorem collect_nonzero_shift (vs : List F) (k : Nat) :
    collect_nonzero (k + 1) vs
      = ((collect_nonzero k vs).1, (collect_nonzero k vs).2.map (· + 1)) := by
  induction vs generalizing k with
  | nil => simp [collect_nonzero]
  | cons v vs ih =>
    by_cases hv : v = 0
    · simp [collect_nonzero, hv, ih]
    · simp [collect_nonzero, hv, ih]

theorem batch_inv_allowing_zero_eq_foldl (ws : List F) :
    batch_multiplicative_inverse_allowing_zero ws
      = ((collect_nonzero 0 ws).2.zip ((collect_nonzero 0 ws).1.map (fun x => x⁻¹))).foldl
          (fun result p => result.set p.1 p.2) ws := rfl

/-- The repository's zero-preserving batched inverse is the elementwise
inverse (with the convention `0⁻¹ = 0`). -/
theorem batch_multiplicative_inverse_allowing_zero_eq_map_inv (values : List F) :
    batch_multiplicative_inverse_allowing_zero values = values.map (fun x => x⁻¹) := by
  induction values with
  | nil => rfl
  | cons v vs ih =>
    rw [batch_inv_allowing_zero_eq_foldl]
    by_cases hv : v = 0
    · subst hv
      simp only [collect_nonzero, if_pos rfl, collect_nonzero_shift vs 0, ite_true,
        eq_self_iff_true]
      rw [zip_map_add_one, foldl_set_shift, ← batch_inv_allowing_zero_eq_foldl, ih]
      simp
    · simp only [collect_nonzero, if_neg hv, collect_nonzero_shift vs 0, List.map_cons,
        List.zip_cons_cons, List.foldl_cons, List.set]
      rw [zip_map_add_one, foldl_set_shift, ← batch_inv_allowing_zero_eq_foldl, ih]

end Lemmas

end P3

namespace P3

theorem foldl_add_eq_sum {M α : Type} [AddCommMonoid M] (f : α → M) (l : List α) (z : M) :
    l.foldl (fun acc a => acc + f a) z = z + (l.map f).sum := by
  induction l generalizing z with
  | nil => simp
  | cons a l ih => simp [ih, add_assoc]

theorem foldl_mul_add_closed {EF : Type} [Field EF] (alpha : EF) (cs : List EF) (z : EF) :
    cs.foldl (fun acc c => acc * alpha + c) z
      = z * alpha ^ cs.length
        + ∑ i in Finset.range cs.length, alpha ^ (cs.length - 1 - i) * cs.getD i 0 := by
  induction cs generalizing z with
  | nil => simp
  | cons c cs ih =>
    rw [List.foldl_cons, ih, List.length_cons, Finset.sum_range_succ']
    simp only [List.getD_cons_succ, List.getD_cons_zero]
    have hsum : ∀ S : EF,
        (∑ i in Finset.range cs.length, alpha ^ (cs.length - 1 - i) * cs.getD i 0) = S →
        (z * alpha + c) * alpha ^ cs.length + S
          = z * alpha ^ (cs.length + 1)
            + (∑ i in Finset.range cs.length,
                alpha ^ (cs.length + 1 - 1 - (i + 1)) * cs.getD i 0
              + alpha ^ (cs.length + 1 - 1 - 0) * c) := by
      intro S hS
      have he : ∀ i, i ∈ Finset.range cs.length →
          alpha ^ (cs.length + 1 - 1 - (i + 1)) * cs.getD i 0
            = alpha ^ (cs.length - 1 - i) * cs.getD i 0 := by
        intro i hi
        congr 2
        omega
      rw [Finset.sum_congr rfl he, hS]
      have hpow : cs.length + 1 - 1 - 0 = cs.length := by omega
      rw [hpow]
      ring
    exact hsum _ rfl

theorem ProverConstraintFolder.prover_fold_all_accumulator {F EF : Type}
    [Field F] [Field EF] [Algebra F EF]
    (f : ProverConstraintFolder F EF) (cs : List EF) :
    (f.fold_all cs).accumulator
      = cs.foldl (fun acc c => acc * f.alpha + c) f.accumulator := by
  induction cs generalizing f with
  | nil => rfl
  | cons c cs ih =>
    simpa [ProverConstraintFolder.fold_all, ProverConstraintFolder.assert_zero_ext]
      using ih { f with accumulator := f.accumulator * f.alpha + c }

theorem VerifierConstraintFolder.verifier_fold_all_accumulator {F EF : Type} [Field EF]
    (f : VerifierConstraintFolder F EF) (cs : List EF) :
    (f.fold_all cs).accumulator
      = cs.foldl (fun acc c => acc * f.alpha + c) f.accumulator := by
  induction cs generalizing f with
  | nil => rfl
  | cons c cs ih =>
    simpa [VerifierConstraintFolder.fold_all, VerifierConstraintFolder.assert_zero_ext]
      using ih { f with accumulator := f.accumulator * f.alpha + c }

/-- C6: the prover and verifier constraint folders implement the same folding
recurrence: `assert_zero` and `assert_zero_ext` both update the accumulator
to `accumulator * alpha + x`, and from a zero accumulator an identical
sequence of asserted constraint values leaves both folders with the folded
value `sum over i of alpha ^ (k - i) * c_i`. -/
theorem C6_folders_same_folding_recurrence {F EF : Type} [Field F] [Field EF] [Algebra F EF]
    (fp : ProverConstraintFolder F EF) (fv : VerifierConstraintFolder F EF)
    (cs : List EF) (hp : fp.accumulator = 0) (hv : fv.accumulator = 0)
    (ha : fp.alpha = fv.alpha) :
    (∀ (f : ProverConstraintFolder F EF) (x : F),
        (f.assert_zero x).accumulator = f.accumulator * f.alpha + algebraMap F EF x)
    ∧ (∀ (f : ProverConstraintFolder F EF) (x : EF),
        (f.assert_zero_ext x).accumulator = f.accumulator * f.alpha + x)
    ∧ (∀ (f : VerifierConstraintFolder F EF) (x : EF),
        (f.assert_zero x).accumulator = f.accumulator * f.alpha + x)
    ∧ (∀ (f : VerifierConstraintFolder F EF) (x : EF),
        (f.assert_zero_ext x).accumulator = f.accumulator * f.alpha + x)
    ∧ (fp.fold_all cs).accumulator = (fv.fold_all cs).accumulator
    ∧ (fp.fold_all cs).accumulator
        = ∑ i in Finset.range cs.length, fp.alpha ^ (cs.length - 1 - i) * cs.getD i 0 := by
  refine ⟨fun f x => rfl, fun f x => rfl, fun f x => rfl, fun f x => rfl, ?_, ?_⟩
  · rw [ProverConstraintFolder.prover_fold_all_accumulator,
      VerifierConstraintFolder.verifier_fold_all_accumulator, hp, hv, ha]
  · rw [ProverConstraintFolder.prover_fold_all_accumulator, hp, foldl_mul_add_closed]
    simp

/-- Witness for C6 on concrete `ZMod 7` folders and a concrete constraint
sequence. -/
theorem C6_folders_same_folding_recurrence_witness :
    sample_prover_folder.accumulator = 0
    ∧ sample_verifier_folder.accumulator = 0
    ∧ sample_prover_folder.alpha = sample_verifier_folder.alpha
    ∧ ((sample_prover_folder.fold_all [1, 2, 3]).accumulator
        = (sample_verifier_folder.fold_all [1, 2, 3]).accumulator) := by
  refine ⟨by rfl, by rfl, by rfl, ?_⟩
  exact (C6_folders_same_folding_recurrence sample_prover_folder sample_verifier_folder
    [1, 2, 3] rfl rfl rfl).2.2.2.2.1

/-- C10: `is_transition_window` on both the prover and the verifier folder
panics (modelled as `none`) for every window size other than 2, and returns
the transition selector exactly at size 2. -/
theorem C10_is_transition_window_only_size_two {F EF : Type}
    (fp : ProverConstraintFolder F EF) (fv : VerifierConstraintFolder F EF)
    (n : Nat) (hn : n ≠ 2) :
    fp.is_transition_window n = none ∧ fv.is_transition_window n = none
    ∧ fp.is_transition_window 2 = some fp.is_transition
    ∧ fv.is_transition_window 2 = some fv.is_transition := by
  refine ⟨?_, ?_, rfl, rfl⟩
  · simp [ProverConstraintFolder.is_transition_window, hn]
  · simp [VerifierConstraintFolder.is_transition_window, hn]

/-- Witness for C10 at window size 3 on concrete `ZMod 7` folders. -/
theorem C10_is_transition_window_only_size_two_witness :
    (3 ≠ 2)
    ∧ (sample_prover_folder.is_transition_window 3 = none
      ∧ sample_verifier_folder.is_transition_window 3 = none
      ∧ sample_prover_folder.is_transition_window 2 = some sample_prover_folder.is_transition
      ∧ sample_verifier_folder.is_transition_window 2
          = some sample_verifier_folder.is_transition) :=
  ⟨by decide,
   C10_is_transition_window_only_size_two sample_prover_folder sample_verifier_folder 3
     (by decide)⟩

end P3

namespace P3

theorem chunks_exact_nil {α : Type} (k : Nat) : chunks_exact k ([] : List α) = [] := by
  rw [chunks_exact]
  simp
  omega

theorem chunks_exact_append {α : Type} (xs ys : List α) (hk : 0 < xs.length) :
    chunks_exact xs.length (xs ++ ys) = xs :: chunks_exact xs.length ys := by
  rw [chunks_exact]
  rw [dif_pos ⟨hk, by simp⟩]
  rw [List.take_left, List.drop_left]

theorem chunks_exact_flatten {α : Type} (k : Nat) (hk : 0 < k) (rows : List (List α))
    (hrows : ∀ r ∈ rows, r.length = k) :
    chunks_exact k rows.flatten = rows := by
  induction rows with
  | nil => simpa using chunks_exact_nil k
  | cons r rs ih =>
    have hr : r.length = k := hrows r (by simp)
    have hrest : ∀ r' ∈ rs, r'.length = k := fun r' h => hrows r' (by simp [h])
    rw [List.flatten_cons, ← hr, chunks_exact_append r _ (by omega), hr, ih hrest]

end P3

namespace P3

section TraceLemmas

variable {F EF : Type} [Field F] [Field EF] [Algebra F EF] [DecidableEq EF]
variable (interactions : List (Interaction F × InteractionType))
variable (preprocessed : Option (List (List F))) (main : List (List F))
variable (random_elements : List EF)

theorem pre_rows_length :
    (permutation_pre_inverse_rows interactions preprocessed main random_elements).length
      = main.length := by
  simp [permutation_pre_inverse_rows]

theorem pre_rows_row_length :
    ∀ r ∈ permutation_pre_inverse_rows interactions preprocessed main random_elements,
      r.length = interactions.length + 1 := by
  intro r hr
  simp only [permutation_pre_inverse_rows] at hr
  obtain ⟨p, _, rfl⟩ := List.mem_map.mp hr
  simp

theorem gpt_eq_recip_set :
    generate_permutation_trace interactions preprocessed main random_elements
      = ((permutation_pre_inverse_rows interactions preprocessed main random_elements).map
          (fun row => row.map (fun x => x⁻¹))).enum.map (fun nrow =>
            nrow.2.set (nrow.2.length - 1)
              (phi_running interactions preprocessed main
                ((permutation_pre_inverse_rows interactions preprocessed main
                  random_elements).map (fun row => row.map (fun x => x⁻¹))) nrow.1)) := by
  have hinv : batch_multiplicative_inverse_allowing_zero
      ((permutation_pre_inverse_rows interactions preprocessed main random_elements).flatten)
      = ((permutation_pre_inverse_rows interactions preprocessed main random_elements).map
          (fun row => row.map (fun x => x⁻¹))).flatten := by
    rw [batch_multiplicative_inverse_allowing_zero_eq_map_inv]
    exact List.map_flatten ..
  have hchunks : chunks_exact (interactions.length + 1)
      (((permutation_pre_inverse_rows interactions preprocessed main random_elements).map
        (fun row => row.map (fun x => x⁻¹))).flatten)
      = (permutation_pre_inverse_rows interactions preprocessed main random_elements).map
          (fun row => row.map (fun x => x⁻¹)) := by
    refine chunks_exact_flatten _ (by omega) _ ?_
    intro r hr
    obtain ⟨r', hr', rfl⟩ := List.mem_map.mp hr
    simpa using pre_rows_row_length interactions preprocessed main random_elements r' hr'
  simp only [generate_permutation_trace]
  rw [hinv, hchunks]

theorem gpt_length :
    (generate_permutation_trace interactions preprocessed main random_elements).length
      = main.length := by
  rw [gpt_eq_recip_set]
  simp [pre_rows_length interactions preprocessed main random_elements]

theorem gpt_row_eq (n : Nat) (hn : n < main.length) :
    (generate_permutation_trace interactions preprocessed main random_elements).getD n []
      = (((permutation_pre_inverse_rows interactions preprocessed main
            random_elements).getD n []).map (fun x => x⁻¹)).set
          ((((permutation_pre_inverse_rows interactions preprocessed main
            random_elements).getD n []).map (fun x => x⁻¹)).length - 1)
          (phi_running interactions preprocessed main
            ((permutation_pre_inverse_rows interactions preprocessed main
              random_elements).map (fun row => row.map (fun x => x⁻¹))) n) := by
  have hlenpre : n < (permutation_pre_inverse_rows interactions preprocessed main
      random_elements).length := by
    rw [pre_rows_length]; exact hn
  rw [gpt_eq_recip_set]
  rw [List.getD_eq_getElem _ _ (by simpa using hlenpre)]
  rw [List.getElem_map, List.getElem_enum, List.getElem_map]
  rw [List.getD_eq_getElem _ _ hlenpre]

theorem pre_row_eq (n : Nat) (hn : n < main.length) :
    (permutation_pre_inverse_rows interactions preprocessed main random_elements).getD n []
      = (interactions.map (fun p =>
          reduce_row (main.getD n []) (preprocessed_row_at preprocessed n) p.1.fields
            ((generate_rlc_elements interactions random_elements).getD p.1.argument_index 0)
            (random_elements.getD 1 0))) ++ [0] := by
  have hlenpre : n < (permutation_pre_inverse_rows interactions preprocessed main
      random_elements).length := by
    rw [pre_rows_length]; exact hn
  rw [List.getD_eq_getElem _ _ hlenpre]
  simp only [permutation_pre_inverse_rows]
  rw [List.getElem_map, List.getElem_enum]
  rw [List.getD_eq_getElem _ _ hn]

end TraceLemmas

end P3

namespace P3

theorem getLast?_set_last {α : Type} (l : List α) (x : α) (hl : 0 < l.length) :
    (l.set (l.length - 1) x).getLast? = some x := by
  rw [List.getLast?_eq_getElem?, List.length_set]
  have h : l.length - 1 < l.length := by omega
  simp [List.getElem?_set_self', h]

section TraceLemmas2

variable {F EF : Type} [Field F] [Field EF] [Algebra F EF] [DecidableEq EF]
variable (interactions : List (Interaction F × InteractionType))
variable (preprocessed : Option (List (List F))) (main : List (List F))
variable (random_elements : List EF)

theorem pre_row_length (n : Nat) (hn : n < main.length) :
    ((permutation_pre_inverse_rows interactions preprocessed main
        random_elements).getD n []).length = interactions.length + 1 := by
  rw [pre_row_eq interactions preprocessed main random_elements n hn]
  simp

theorem gpt_entry_eq_inv (n m : Nat) (hn : n < main.length)
    (hm : m < interactions.length) :
    ((generate_permutation_trace interactions preprocessed main
        random_elements).getD n []).getD m 0
      = (pre_inversion_value interactions preprocessed main random_elements n m)⁻¹ := by
  rw [gpt_row_eq interactions preprocessed main random_elements n hn]
  have hrowlen := pre_row_length interactions preprocessed main random_elements n hn
  have hmrow : m < ((permutation_pre_inverse_rows interactions preprocessed main
      random_elements).getD n []).length := by
    rw [hrowlen]; omega
  have hmlen : m < (((permutation_pre_inverse_rows interactions preprocessed main
      random_elements).getD n []).map (fun x => x⁻¹)).length := by
    rw [List.length_map]; exact hmrow
  have hset : m < ((((permutation_pre_inverse_rows interactions preprocessed main
      random_elements).getD n []).map (fun x => x⁻¹)).set
        ((((permutation_pre_inverse_rows interactions preprocessed main
          random_elements).getD n []).map (fun x => x⁻¹)).length - 1)
        (phi_running interactions preprocessed main
          ((permutation_pre_inverse_rows interactions preprocessed main
            random_elements).map (fun row => row.map (fun x => x⁻¹))) n)).length := by
    rw [List.length_set]; exact hmlen
  have hne : (((permutation_pre_inverse_rows interactions preprocessed main
      random_elements).getD n []).map (fun x => x⁻¹)).length - 1 ≠ m := by
    rw [List.length_map, hrowlen]; omega
  rw [List.getD_eq_getElem _ _ hset]
  rw [List.getElem_set_ne hne]
  rw [List.getElem_map]
  rw [pre_inversion_value]
  congr 1
  exact (List.getD_eq_getElem _ _ hmrow).symm

theorem gpt_row_getLast (n : Nat) (hn : n < main.length) :
    ((generate_permutation_trace interactions preprocessed main
        random_elements).getD n []).getLast?
      = some (phi_running interactions preprocessed main
          ((permutation_pre_inverse_rows interactions preprocessed main
            random_elements).map (fun row => row.map (fun x => x⁻¹))) n) := by
  rw [gpt_row_eq interactions preprocessed main random_elements n hn]
  refine getLast?_set_last _ _ ?_
  rw [List.length_map, pre_row_length interactions preprocessed main random_elements n hn]
  omega

theorem phi_running_eq_sum (recip_rows : List (List EF)) (n : Nat) :
    phi_running interactions preprocessed main recip_rows n
      = ∑ n' in Finset.range (n + 1),
          phi_row_contribution interactions preprocessed main recip_rows n' := by
  induction n with
  | zero => simp [phi_running]
  | succ n ih => simp [phi_running, ih, Finset.sum_range_succ]

theorem phi_row_contribution_eq_sum (recip_rows : List (List EF)) (n : Nat) :
    phi_row_contribution interactions preprocessed main recip_rows n
      = (interactions.enum.map (fun mp =>
          interaction_sign mp.2.2
            * algebraMap F EF (interaction_mult mp.2.1 (preprocessed_row_at preprocessed n)
                (main.getD n []))
            * (recip_rows.getD n []).getD mp.1 0)).sum := by
  rw [phi_row_contribution]
  have hbody : (fun (acc : EF) (mp : Nat × (Interaction F × InteractionType)) =>
      match mp.2.2 with
      | .send => acc + (recip_rows.getD n []).getD mp.1 0
          * algebraMap F EF (interaction_mult mp.2.1 (preprocessed_row_at preprocessed n)
              (main.getD n []))
      | .receive => acc - (recip_rows.getD n []).getD mp.1 0
          * algebraMap F EF (interaction_mult mp.2.1 (preprocessed_row_at preprocessed n)
              (main.getD n [])))
      = (fun acc mp => acc + interaction_sign mp.2.2
          * algebraMap F EF (interaction_mult mp.2.1 (preprocessed_row_at preprocessed n)
              (main.getD n []))
          * (recip_rows.getD n []).getD mp.1 0) := by
    funext acc mp
    rcases mp with ⟨m, int, ty⟩
    cases ty
    · simp only [interaction_sign]
      ring
    · simp only [interaction_sign]
      ring
  rw [hbody, foldl_add_eq_sum, zero_add]

end TraceLemmas2

end P3

namespace P3

theorem getD_map_inv {EF : Type} [Field EF] (l : List EF) (m : Nat) :
    (l.map (fun x => x⁻¹)).getD m 0 = (l.getD m 0)⁻¹ := by
  rcases lt_or_ge m l.length with h | h
  · rw [List.getD_eq_getElem _ _ (by simpa using h), List.getElem_map,
      List.getD_eq_getElem _ _ h]
  · rw [List.getD_eq_default _ _ (by simpa using h), List.getD_eq_default _ _ h, inv_zero]

theorem getD_map_map {α β : Type} (f : α → β) (L : List (List α)) (n : Nat) :
    (L.map (fun row => row.map f)).getD n [] = (L.getD n []).map f := by
  rcases lt_or_ge n L.length with h | h
  · rw [List.getD_eq_getElem _ _ (by simpa using h), List.getElem_map,
      List.getD_eq_getElem _ _ h]
  · rw [List.getD_eq_default _ _ (by simpa using h), List.getD_eq_default _ _ h,
      List.map_nil]

section ClaimsTrace

variable {F EF : Type} [Field F] [Field EF] [Algebra F EF] [DecidableEq EF]
variable (interactions : List (Interaction F × InteractionType))
variable (preprocessed : Option (List (List F))) (main : List (List F))
variable (random_elements : List EF)

theorem contribution_eq_final_entries (n' : Nat) (hn' : n' < main.length) :
    phi_row_contribution interactions preprocessed main
      ((permutation_pre_inverse_rows interactions preprocessed main
        random_elements).map (fun row => row.map (fun x => x⁻¹))) n'
      = (interactions.enum.map (fun mp =>
          interaction_sign mp.2.2
            * algebraMap F EF (interaction_mult mp.2.1
                (preprocessed_row_at preprocessed n') (main.getD n' []))
            * (((generate_permutation_trace interactions preprocessed main
                random_elements).getD n' []).getD mp.1 0))).sum := by
  rw [phi_row_contribution_eq_sum]
  refine congrArg List.sum (List.map_congr_left ?_)
  intro mp hmp
  have hmp1 : mp.1 < interactions.length := by simpa using (List.mem_enumFrom hmp).2.1
  congr 1
  rw [getD_map_map, getD_map_inv]
  exact (gpt_entry_eq_inv interactions preprocessed main random_elements n' mp.1 hn'
    hmp1).symm

/-- C2: the last column of the generated permutation trace is the running
sum: at every row `n` it equals the prefix sum over rows up to `n` of the
signed multiplicity-weighted reciprocal entries, and the cumulative sum the
pipeline reads (last entry of the last row) is this column's value at the
last row, i.e. the full sum. -/
theorem C2_running_sum_column (n : Nat) (hn : n < main.length) :
    ((generate_permutation_trace interactions preprocessed main
        random_elements).getD n []).getLast?
      = some (∑ n' in Finset.range (n + 1),
          (interactions.enum.map (fun mp =>
            interaction_sign mp.2.2
              * algebraMap F EF (interaction_mult mp.2.1
                  (preprocessed_row_at preprocessed n') (main.getD n' []))
              * (((generate_permutation_trace interactions preprocessed main
                  random_elements).getD n' []).getD mp.1 0))).sum)
    ∧ pipeline_cumulative_sum (generate_permutation_trace interactions preprocessed main
        random_elements)
      = some (∑ n' in Finset.range main.length,
          (interactions.enum.map (fun mp =>
            interaction_sign mp.2.2
              * algebraMap F EF (interaction_mult mp.2.1
                  (preprocessed_row_at preprocessed n') (main.getD n' []))
              * (((generate_permutation_trace interactions preprocessed main
                  random_elements).getD n' []).getD mp.1 0))).sum) := by
  constructor
  · rw [gpt_row_getLast interactions preprocessed main random_elements n hn,
      phi_running_eq_sum]
    congr 1
    refine Finset.sum_congr rfl ?_
    intro n' hn'
    have hlt : n' < main.length := by
      have := Finset.mem_range.mp hn'
      omega
    exact contribution_eq_final_entries interactions preprocessed main random_elements n' hlt
  · have hpos : 0 < main.length := by omega
    rw [pipeline_cumulative_sum,
      gpt_length interactions preprocessed main random_elements,
      gpt_row_getLast interactions preprocessed main random_elements (main.length - 1)
        (by omega),
      phi_running_eq_sum]
    have hrange : main.length - 1 + 1 = main.length := by omega
    rw [hrange]
    congr 1
    refine Finset.sum_congr rfl ?_
    intro n' hn'
    have hlt : n' < main.length := Finset.mem_range.mp hn'
    exact contribution_eq_final_entries interactions preprocessed main random_elements n' hlt

end ClaimsTrace

end P3

namespace P3

theorem le_foldr_max (l : List Nat) (a : Nat) (ha : a ∈ l) : a ≤ l.foldr max 0 := by
  induction l with
  | nil => cases ha
  | cons b l ih =>
    rcases List.mem_cons.mp ha with rfl | hmem
    · exact le_max_left _ _
    · exact (ih hmem).trans (le_max_right _ _)

section ClaimsTrace2

variable {F EF : Type} [Field F] [Field EF] [Algebra F EF] [DecidableEq EF]
variable (interactions : List (Interaction F × InteractionType))
variable (preprocessed : Option (List (List F))) (main : List (List F))
variable (random_elements : List EF)

theorem reduce_row_eq_sum (main_row preprocessed_row : List F)
    (fields : List (VirtualPairCol F)) (alpha beta : EF) :
    reduce_row main_row preprocessed_row fields alpha beta
      = (fields.enum.map (fun jf =>
          beta ^ jf.1 * algebraMap F EF (jf.2.apply preprocessed_row main_row))).sum
        + alpha := by
  rw [reduce_row, foldl_add_eq_sum, zero_add]

theorem generate_rlc_elements_getD (b : Nat)
    (hb : b ∈ interactions.map (fun p => p.1.argument_index)) :
    (generate_rlc_elements interactions random_elements).getD b 0
      = (random_elements.getD 0 0) ^ (b + 1) := by
  have hle : b ≤ (interactions.map (fun p => p.1.argument_index)).foldr max 0 :=
    le_foldr_max _ _ hb
  have hlt : b < ((interactions.map (fun p => p.1.argument_index)).foldr max 0) + 1 := by
    omega
  rw [generate_rlc_elements]
  rw [List.getD_eq_getElem _ _ (by simpa using hlt), List.getElem_map, List.getElem_range]

/-- C4 (amended): the pre-inversion value for row `n` and interaction `m`
equals `beta ^ (bus_id + 1) + sum over j of gamma ^ j * fields[j]` where
`beta` is the FIRST supplied challenge and `gamma` the SECOND: the bus-tag
powers are drawn from the first challenge (starting at exponent
`bus_id + 1`) and the field-combining powers from the second challenge
(starting at exponent 0). -/
theorem C4_pre_inversion_challenge_roles (n m : Nat) (hn : n < main.length)
    (hm : m < interactions.length) :
    pre_inversion_value interactions preprocessed main random_elements n m
      = (random_elements.getD 0 0)
          ^ ((interactions.get ⟨m, hm⟩).1.argument_index + 1)
        + ((interactions.get ⟨m, hm⟩).1.fields.enum.map (fun jf =>
            (random_elements.getD 1 0) ^ jf.1
              * algebraMap F EF (jf.2.apply (preprocessed_row_at preprocessed n)
                  (main.getD n [])))).sum := by
  rw [pre_inversion_value, pre_row_eq interactions preprocessed main random_elements n hn]
  have hmmap : m < (interactions.map (fun p =>
      reduce_row (main.getD n []) (preprocessed_row_at preprocessed n) p.1.fields
        ((generate_rlc_elements interactions random_elements).getD p.1.argument_index 0)
        (random_elements.getD 1 0))).length := by
    rw [List.length_map]; exact hm
  have hmlen : m < ((interactions.map (fun p =>
      reduce_row (main.getD n []) (preprocessed_row_at preprocessed n) p.1.fields
        ((generate_rlc_elements interactions random_elements).getD p.1.argument_index 0)
        (random_elements.getD 1 0))) ++ [(0 : EF)]).length := by
    rw [List.length_append, List.length_map]
    simp
    omega
  rw [List.getD_eq_getElem _ _ hmlen]
  rw [List.getElem_append_left hmmap]
  rw [List.getElem_map]
  rw [reduce_row_eq_sum]
  rw [generate_rlc_elements_getD interactions random_elements _
    (List.mem_map.mpr ⟨interactions.get ⟨m, hm⟩, List.get_mem _ _ hm, by
      rw [List.get_eq_getElem]⟩)]
  rw [List.get_eq_getElem]
  exact add_comm _ _

/-- C3: every reciprocal entry of the permutation trace is the inverse of
its pre-inversion value — it multiplies with a nonzero value to 1 and stays
0 on a zero value — and `batch_multiplicative_inverse_allowing_zero` returns
a vector of the input's length in which every nonzero element is replaced by
its inverse and every zero element remains zero. -/
theorem C3_reciprocal_entries (n m : Nat) (hn : n < main.length)
    (hm : m < interactions.length) :
    ((pre_inversion_value interactions preprocessed main random_elements n m ≠ 0 →
        ((generate_permutation_trace interactions preprocessed main
            random_elements).getD n []).getD m 0
          * pre_inversion_value interactions preprocessed main random_elements n m = 1)
      ∧ (pre_inversion_value interactions preprocessed main random_elements n m = 0 →
        ((generate_permutation_trace interactions preprocessed main
            random_elements).getD n []).getD m 0 = 0))
    ∧ ∀ values : List EF,
        (batch_multiplicative_inverse_allowing_zero values).length = values.length
        ∧ ∀ i, i < values.length →
            ((values.getD i 0 ≠ 0 →
                (batch_multiplicative_inverse_allowing_zero values).getD i 0
                  * values.getD i 0 = 1)
              ∧ (values.getD i 0 = 0 →
                (batch_multiplicative_inverse_allowing_zero values).getD i 0 = 0)) := by
  constructor
  · rw [gpt_entry_eq_inv interactions preprocessed main random_elements n m hn hm]
    constructor
    · intro h
      exact inv_mul_cancel₀ h
    · intro h
      rw [h, inv_zero]
  · intro values
    rw [batch_multiplicative_inverse_allowing_zero_eq_map_inv]
    refine ⟨List.length_map _ _, fun i hi => ?_⟩
    rw [getD_map_inv]
    exact ⟨fun h => inv_mul_cancel₀ h, fun h => by rw [h, inv_zero]⟩

end ClaimsTrace2

/-- C4 counterexample: for the one-interaction sample chip with challenge
pair `[2, 3]` over `ZMod 7`, the pre-inversion value is
`2 ^ (0 + 1) + 3 ^ 0 * 1 = 3`, not the claimed
`gamma * gamma ^ bus_id + beta ^ 0 * field = 3 * 3 ^ 0 + 2 ^ 0 * 1 = 4`:
the code draws the bus-tag powers from the first challenge and the
field-combining powers from the second, not the other way round. -/
theorem C4_pre_inversion_challenge_roles_counterexample :
    pre_inversion_value sample_interactions none sample_main
        ([2, 3] : List (ZMod 7)) 0 0
      ≠ 3 * 3 ^ (0 : Nat) + 2 ^ (0 : Nat) * 1 := by
  decide

end P3

namespace P3

/-- Witness for C2 on the concrete one-interaction chip over `ZMod 7`. -/
theorem C2_running_sum_column_witness :
    (0 < sample_main.length)
    ∧ ((((generate_permutation_trace sample_interactions none sample_main
          ([2, 3] : List (ZMod 7))).getD 0 []).getLast?
        = some (∑ n' in Finset.range (0 + 1),
            (sample_interactions.enum.map (fun mp =>
              interaction_sign mp.2.2
                * algebraMap (ZMod 7) (ZMod 7) (interaction_mult mp.2.1
                    (preprocessed_row_at none n') (sample_main.getD n' []))
                * (((generate_permutation_trace sample_interactions none sample_main
                    ([2, 3] : List (ZMod 7))).getD n' []).getD mp.1 0))).sum))
      ∧ pipeline_cumulative_sum (generate_permutation_trace sample_interactions none
          sample_main ([2, 3] : List (ZMod 7)))
        = some (∑ n' in Finset.range sample_main.length,
            (sample_interactions.enum.map (fun mp =>
              interaction_sign mp.2.2
                * algebraMap (ZMod 7) (ZMod 7) (interaction_mult mp.2.1
                    (preprocessed_row_at none n') (sample_main.getD n' []))
                * (((generate_permutation_trace sample_interactions none sample_main
                    ([2, 3] : List (ZMod 7))).getD n' []).getD mp.1 0))).sum)) :=
  ⟨by decide,
   C2_running_sum_column sample_interactions none sample_main [2, 3] 0 (by decide)⟩

/-- Witness for C3 on the concrete one-interaction chip over `ZMod 7`. -/
theorem C3_reciprocal_entries_witness :
    (0 < sample_main.length) ∧ (0 < sample_interactions.length)
    ∧ (((pre_inversion_value sample_interactions none sample_main
          ([2, 3] : List (ZMod 7)) 0 0 ≠ 0 →
          ((generate_permutation_trace sample_interactions none sample_main
              ([2, 3] : List (ZMod 7))).getD 0 []).getD 0 0
            * pre_inversion_value sample_interactions none sample_main
                ([2, 3] : List (ZMod 7)) 0 0 = 1)
        ∧ (pre_inversion_value sample_interactions none sample_main
              ([2, 3] : List (ZMod 7)) 0 0 = 0 →
          ((generate_permutation_trace sample_interactions none sample_main
              ([2, 3] : List (ZMod 7))).getD 0 []).getD 0 0 = 0))
      ∧ ∀ values : List (ZMod 7),
          (batch_multiplicative_inverse_allowing_zero values).length = values.length
          ∧ ∀ i, i < values.length →
              ((values.getD i 0 ≠ 0 →
                  (batch_multiplicative_inverse_allowing_zero values).getD i 0
                    * values.getD i 0 = 1)
                ∧ (values.getD i 0 = 0 →
                  (batch_multiplicative_inverse_allowing_zero values).getD i 0 = 0))) :=
  ⟨by decide, by decide,
   C3_reciprocal_entries sample_interactions none sample_main [2, 3] 0 0 (by decide)
     (by decide)⟩

/-- Witness for C4's amended statement on the concrete one-interaction chip
over `ZMod 7`: the pre-inversion value is `2 ^ 1 + 3 ^ 0 * 1 = 3`. -/
theorem C4_pre_inversion_challenge_roles_witness :
    (0 < sample_main.length) ∧ (0 < sample_interactions.length)
    ∧ pre_inversion_value sample_interactions none sample_main
        ([2, 3] : List (ZMod 7)) 0 0
      = (([2, 3] : List (ZMod 7)).getD 0 0)
          ^ ((sample_interactions.get ⟨0, by decide⟩).1.argument_index + 1)
        + ((sample_interactions.get ⟨0, by decide⟩).1.fields.enum.map (fun jf =>
            (([2, 3] : List (ZMod 7)).getD 1 0) ^ jf.1
              * algebraMap (ZMod 7) (ZMod 7) (jf.2.apply (preprocessed_row_at none 0)
                  (sample_main.getD 0 [])))).sum :=
  ⟨by decide, by decide,
   C4_pre_inversion_challenge_roles sample_interactions none sample_main [2, 3] 0 0
     (by decide) (by decide)⟩

end P3

namespace P3

section C5Lemmas

variable {F EF : Type} [Field F] [Field EF] [Algebra F EF]
variable (b : RapBuilderState F EF) (alphas : List EF) (beta : EF)

theorem eval_loop_spec (l : List (Nat × (Interaction F × InteractionType)))
    (acc : List EF × EF × EF) :
    l.foldl (fun acc mp =>
      let rlc := (mp.2.1.fields.enum.foldl (fun rlc jf =>
          rlc + beta ^ jf.1 * algebraMap F EF (jf.2.apply b.preprocessed_local b.main_local))
          0) + alphas.getD mp.2.1.argument_index 0
      let asserted := acc.1 ++ [rlc * b.perm_local.getD mp.1 0 - 1]
      let mult_local := algebraMap F EF (mp.2.1.count.apply b.preprocessed_local b.main_local)
      let mult_next := algebraMap F EF (mp.2.1.count.apply b.preprocessed_next b.main_next)
      match mp.2.2 with
      | .send => (asserted, acc.2.1 + b.perm_local.getD mp.1 0 * mult_local,
          acc.2.2 + b.perm_next.getD mp.1 0 * mult_next)
      | .receive => (asserted, acc.2.1 - b.perm_local.getD mp.1 0 * mult_local,
          acc.2.2 - b.perm_next.getD mp.1 0 * mult_next)) acc
    = (acc.1 ++ l.map (fun mp =>
          reduce_row b.main_local b.preprocessed_local mp.2.1.fields
            (alphas.getD mp.2.1.argument_index 0) beta * b.perm_local.getD mp.1 0 - 1),
       acc.2.1 + (l.map (fun mp => interaction_sign mp.2.2
          * algebraMap F EF (mp.2.1.count.apply b.preprocessed_local b.main_local)
          * b.perm_local.getD mp.1 0)).sum,
       acc.2.2 + (l.map (fun mp => interaction_sign mp.2.2
          * algebraMap F EF (mp.2.1.count.apply b.preprocessed_next b.main_next)
          * b.perm_next.getD mp.1 0)).sum) := by
  induction l generalizing acc with
  | nil => simp
  | cons mp l ih =>
    rw [List.foldl_cons, ih]
    rcases mp with ⟨m, int, ty⟩
    cases ty
    · simp only [interaction_sign, List.map_cons, List.sum_cons, reduce_row]
      refine Prod.ext ?_ (Prod.ext ?_ ?_)
      · simp [List.append_assoc]
      · simp only []
        ring
      · simp only []
        ring
    · simp only [interaction_sign, List.map_cons, List.sum_cons, reduce_row]
      refine Prod.ext ?_ (Prod.ext ?_ ?_)
      · simp [List.append_assoc]
      · simp only []
        ring
      · simp only []
        ring

end C5Lemmas

section C5Main

variable {F EF : Type} [Field F] [Field EF] [Algebra F EF]

/-- C5: `eval_permutation_constraints` asserts exactly the four constraint
families of the RAP argument, in order: for each interaction `m` the
reciprocal constraint `rlc_m(local) * perm_local[m] = 1` (asserted as
`rlc * perm - 1`); under the transition selector
`phi_next - phi_local = sum of sign * mult(next) * perm_next[m]`; under the
first-row selector `phi_local = sum of sign * mult(local) * perm_local[m]`;
and under the last-row selector `phi_local = cumulative_sum`. -/
theorem C5_eval_permutation_constraint_families
    (interactions : List (Interaction F × InteractionType))
    (b : RapBuilderState F EF) (cumulative_sum : EF) :
    eval_permutation_constraints interactions b cumulative_sum
      = (interactions.enum.map (fun mp =>
          reduce_row b.main_local b.preprocessed_local mp.2.1.fields
            ((generate_rlc_elements interactions b.perm_challenges).getD
              mp.2.1.argument_index 0) (b.perm_challenges.getD 1 0)
            * b.perm_local.getD mp.1 0 - 1))
        ++ [((b.perm_next.getD (b.perm_local.length - 1) 0
              - b.perm_local.getD (b.perm_local.length - 1) 0)
            - (interactions.enum.map (fun mp => interaction_sign mp.2.2
                * algebraMap F EF (interaction_mult mp.2.1 b.preprocessed_next b.main_next)
                * b.perm_next.getD mp.1 0)).sum)
            * algebraMap F EF b.is_transition,
          (b.perm_local.getLastD 0
            - (interactions.enum.map (fun mp => interaction_sign mp.2.2
                * algebraMap F EF (interaction_mult mp.2.1 b.preprocessed_local b.main_local)
                * b.perm_local.getD mp.1 0)).sum)
            * algebraMap F EF b.is_first_row,
          (b.perm_local.getLastD 0 - cumulative_sum) * algebraMap F EF b.is_last_row] := by
  simp only [eval_permutation_constraints]
  rw [eval_loop_spec]
  simp [interaction_mult]

end C5Main

end P3

namespace P3

theorem recomposed_quotient_eq_grouped {EF : Type} [Field EF] (zps : List EF)
    (monomial : Nat → EF) (chunks : List (List EF)) :
    recomposed_quotient zps monomial chunks
      = (chunks.enum.map (fun ch => zps.getD ch.1 0
          * (ch.2.enum.map (fun ec => monomial ec.1 * ec.2)).sum)).sum := by
  rw [recomposed_quotient]
  refine congrArg List.sum (List.map_congr_left ?_)
  intro ch _
  rw [← List.sum_map_mul_left]
  refine congrArg List.sum (List.map_congr_left ?_)
  intro ec _
  rw [mul_assoc]

section C1Main

variable {F EF : Type} [Field EF] [DecidableEq EF]

/-- C1: `verify_constraints` returns `Ok(())` exactly when the folded
constraint accumulator times the inverse zeroifier at zeta equals the
quotient recomposed from the opened chunks — the sum over chunks `i` of
`zps[i]` times the sum over `e` of `monomial(e) * opened_chunk[i][e]`, with
`zps` the Lagrange-like weights — and returns `OodEvaluationMismatch` in
every other case (given that quotient chunks were opened at all; without
them the source panics). -/
theorem C1_verify_constraints_ok_iff
    (air_eval : RapVerifierConstraintFolder F EF → RapVerifierConstraintFolder F EF)
    (D : Nat) (monomial : Nat → EF) (opened_values : OpenedValues EF)
    (main_domain : DomainModel EF) (qc_domains : List (DomainModel EF))
    (zeta alpha : EF) (permutation_challenges : List EF)
    (cumulative_sum : Option EF) (public_values : List F)
    (chunks : List (List EF)) (hq : opened_values.quotient_chunks = some chunks) :
    (verify_constraints air_eval D monomial opened_values main_domain qc_domains zeta
        alpha permutation_challenges cumulative_sum public_values
      = some (Except.ok ())
      ↔ (air_eval (build_rap_verifier_folder D monomial opened_values
            (main_domain.selectors_at_point zeta) permutation_challenges cumulative_sum
            public_values alpha)).accumulator
          * (main_domain.selectors_at_point zeta).inv_zeroifier
        = (chunks.enum.map (fun ch => (quotient_zps qc_domains zeta).getD ch.1 0
            * (ch.2.enum.map (fun ec => monomial ec.1 * ec.2)).sum)).sum)
    ∧ ((air_eval (build_rap_verifier_folder D monomial opened_values
            (main_domain.selectors_at_point zeta) permutation_challenges cumulative_sum
            public_values alpha)).accumulator
          * (main_domain.selectors_at_point zeta).inv_zeroifier
        ≠ (chunks.enum.map (fun ch => (quotient_zps qc_domains zeta).getD ch.1 0
            * (ch.2.enum.map (fun ec => monomial ec.1 * ec.2)).sum)).sum →
      verify_constraints air_eval D monomial opened_values main_domain qc_domains zeta
          alpha permutation_challenges cumulative_sum public_values
        = some (Except.error VerificationError.OodEvaluationMismatch)) := by
  simp only [verify_constraints, hq]
  rw [← recomposed_quotient_eq_grouped]
  by_cases hc : (air_eval (build_rap_verifier_folder D monomial opened_values
      (main_domain.selectors_at_point zeta) permutation_challenges cumulative_sum
      public_values alpha)).accumulator
        * (main_domain.selectors_at_point zeta).inv_zeroifier
      = recomposed_quotient (quotient_zps qc_domains zeta) monomial chunks
  · simp [hc]
  · simp [hc]

end C1Main

/-- Witness for C1 on concrete `ZMod 7` data: a single trivial quotient
chunk domain, a chip whose folded accumulator is 1, selectors with inverse
zeroifier 1. -/
theorem C1_verify_constraints_ok_iff_witness :
    (sample_opened_values.quotient_chunks = some [[1]])
    ∧ ((verify_constraints sample_air_eval 1 (fun _ => 1) sample_opened_values
          sample_domain [sample_domain] 2 3 [2, 3] none ([] : List (ZMod 7))
        = some (Except.ok ())
        ↔ (sample_air_eval (build_rap_verifier_folder 1 (fun _ => 1) sample_opened_values
              (sample_domain.selectors_at_point 2) [2, 3] none ([] : List (ZMod 7))
              3)).accumulator
            * (sample_domain.selectors_at_point 2).inv_zeroifier
          = (([[1]] : List (List (ZMod 7))).enum.map (fun ch =>
              (quotient_zps [sample_domain] 2).getD ch.1 0
                * (ch.2.enum.map (fun ec => (fun _ => (1 : ZMod 7)) ec.1 * ec.2)).sum)).sum)
      ∧ ((sample_air_eval (build_rap_verifier_folder 1 (fun _ => 1) sample_opened_values
              (sample_domain.selectors_at_point 2) [2, 3] none ([] : List (ZMod 7))
              3)).accumulator
            * (sample_domain.selectors_at_point 2).inv_zeroifier
          ≠ (([[1]] : List (List (ZMod 7))).enum.map (fun ch =>
              (quotient_zps [sample_domain] 2).getD ch.1 0
                * (ch.2.enum.map (fun ec => (fun _ => (1 : ZMod 7)) ec.1 * ec.2)).sum)).sum →
        verify_constraints sample_air_eval 1 (fun _ => 1) sample_opened_values
            sample_domain [sample_domain] 2 3 [2, 3] none ([] : List (ZMod 7))
          = some (Except.error VerificationError.OodEvaluationMismatch))) :=
  ⟨rfl,
   C1_verify_constraints_ok_iff sample_air_eval 1 (fun _ => 1) sample_opened_values
     sample_domain [sample_domain] 2 3 [2, 3] none ([] : List (ZMod 7)) [[1]] rfl⟩

end P3

namespace P3

section C7Main

variable {F EF : Type} [Field F] [Field EF] [Algebra F EF]

/-- C7: `flatten_to_base` and the verifier's `unflatten` are exact inverses:
flattening each extension element of a row to its `D` base coefficients (the
external `as_base_slice`, whose contract is that recombining the
coefficients against the monomial basis returns the element) and recombining
every `D` consecutive base values as `sum of monomial(e) * c_e` yields the
original row. -/
theorem C7_flatten_unflatten_inverse (D : Nat) (monomial : Nat → EF)
    (as_base_slice : EF → List F) (hD : 0 < D)
    (hlen : ∀ x, (as_base_slice x).length = D)
    (hrecon : ∀ x : EF,
      ((as_base_slice x).enum.map (fun ec => monomial ec.1 * algebraMap F EF ec.2)).sum
        = x)
    (row : List EF) :
    unflatten D monomial ((flatten_to_base as_base_slice row).map (algebraMap F EF))
      = row := by
  induction row with
  | nil =>
    rw [flatten_to_base]
    simp only [List.map_nil, List.flatten_nil]
    rw [unflatten, chunks_exact_nil, List.map_nil]
  | cons x row ih =>
    have hstep : (flatten_to_base as_base_slice (x :: row)).map (algebraMap F EF)
        = (as_base_slice x).map (algebraMap F EF)
          ++ (flatten_to_base as_base_slice row).map (algebraMap F EF) := by
      simp [flatten_to_base]
    rw [hstep, unflatten]
    have hxl : ((as_base_slice x).map (algebraMap F EF)).length = D := by
      rw [List.length_map, hlen]
    have hchunks : chunks_exact D ((as_base_slice x).map (algebraMap F EF)
        ++ (flatten_to_base as_base_slice row).map (algebraMap F EF))
        = ((as_base_slice x).map (algebraMap F EF))
          :: chunks_exact D ((flatten_to_base as_base_slice row).map (algebraMap F EF)) := by
      rw [← hxl]
      exact chunks_exact_append _ _ (by rw [hxl]; exact hD)
    rw [hchunks, List.map_cons]
    congr 1
    · conv_rhs => rw [← hrecon x]
      rw [List.enum_map, List.map_map]
      refine congrArg List.sum (List.map_congr_left ?_)
      intro p _
      cases p
      rfl

end C7Main

/-- Witness for C7 over `ZMod 7` with the one-dimensional extension
(`D = 1`, `as_base_slice x = [x]`, trivial monomial basis) on the row
`[3, 5]`. -/
theorem C7_flatten_unflatten_inverse_witness :
    (0 < 1)
    ∧ (∀ x : ZMod 7, ([x].length = 1))
    ∧ (∀ x : ZMod 7,
        (([x] : List (ZMod 7)).enum.map (fun ec =>
          (fun _ => (1 : ZMod 7)) ec.1 * algebraMap (ZMod 7) (ZMod 7) ec.2)).sum = x)
    ∧ unflatten 1 (fun _ => (1 : ZMod 7))
        ((flatten_to_base (fun x => [x]) ([3, 5] : List (ZMod 7))).map
          (algebraMap (ZMod 7) (ZMod 7)))
      = [3, 5] :=
  ⟨by decide, by decide, by decide,
   C7_flatten_unflatten_inverse 1 (fun _ => (1 : ZMod 7)) (fun x => [x]) (by decide)
     (by decide) (by decide) [3, 5]⟩

end P3

namespace P3

/-- C8: on a collection whose only chip has one interaction but no
permutation trace, the `check_cumulative_sums` of
`src/air-util/src/check_constraints.rs` evaluates `permutation[i].unwrap()`
and panics (modelled as `none`), while the version of
`src/air-util/src/debug/rap/check.rs` treats the chip's contribution to
every bus sum and to the global cumulative sum as 0 and completes: it
returns no bus entries and total 0, as the claim requires. -/
theorem C8_missing_permutation_trace_behavior :
    check_cumulative_sums_old [sample_interactions]
        ([none] : List (Option (List (List (ZMod 7)))))
        ([none] : List (Option (List (List (ZMod 7)))))
        ([none] : List (Option (List (List (ZMod 7))))) = none
    ∧ check_cumulative_sums_rap [sample_interactions]
        ([none] : List (Option (List (List (ZMod 7)))))
        ([none] : List (Option (List (List (ZMod 7)))))
        ([none] : List (Option (List (List (ZMod 7))))) = ([], 0) := by
  constructor
  · decide
  · decide

end P3

namespace P3

section C9Lemmas

variable {M D : Type} (natural_domain_for_degree : Nat → D) (height : M → Nat)

theorem load_traces_aux_length :
    ∀ (traces : List (Option M)) (count : Nat),
      (load_traces_aux natural_domain_for_degree height count traces).length
        = traces.length := by
  intro traces
  induction traces with
  | nil => intro count; rfl
  | cons o rest ih =>
    intro count
    cases o with
    | none => simp [load_traces_aux, ih]
    | some t =>
      by_cases h : 0 < height t
      · simp [load_traces_aux, h, ih]
      · simp [load_traces_aux, h, ih]

theorem nonempty_count_before_zero (traces : List (Option M)) :
    nonempty_count_before height traces 0 = 0 := by
  simp [nonempty_count_before]

theorem nonempty_count_before_cons_succ (o : Option M) (rest : List (Option M)) (i : Nat) :
    nonempty_count_before height (o :: rest) (i + 1)
      = (if (match o with
            | some t => decide (0 < height t)
            | none => false) = true then 1 else 0)
        + nonempty_count_before height rest i := by
  rw [nonempty_count_before, nonempty_count_before, List.take_succ_cons, List.filter_cons]
  split
  · simp only [List.length_cons]
    omega
  · simp

theorem load_traces_aux_getD :
    ∀ (traces : List (Option M)) (count i : Nat), i < traces.length →
      (load_traces_aux natural_domain_for_degree height count traces).getD i none
        = match traces.getD i none with
          | none => none
          | some t =>
            if 0 < height t then
              some ⟨⟨t, natural_domain_for_degree (height t)⟩,
                count + nonempty_count_before height traces i⟩
            else none := by
  intro traces
  induction traces with
  | nil =>
    intro count i hi
    simp at hi
  | cons o rest ih =>
    intro count i hi
    cases o with
    | none =>
      cases i with
      | zero => simp [load_traces_aux]
      | succ i =>
        rw [load_traces_aux]
        simp only [List.getD_cons_succ]
        rw [ih count i (by simpa using hi)]
        rw [nonempty_count_before_cons_succ]
        simp
    | some t =>
      by_cases h : 0 < height t
      · cases i with
        | zero => simp [load_traces_aux, h, nonempty_count_before_zero]
        | succ i =>
          rw [load_traces_aux]
          simp only [h, if_true, List.getD_cons_succ]
          rw [ih (count + 1) i (by simpa using hi)]
          rw [nonempty_count_before_cons_succ]
          rcases hrest : rest.getD i none with _ | t'
          · simp
          · by_cases h' : 0 < height t'
            · simp [h, h', Nat.add_assoc]
            · simp [h, h']
      · cases i with
        | zero => simp [load_traces_aux, h]
        | succ i =>
          rw [load_traces_aux]
          simp only [h, if_false, List.getD_cons_succ]
          rw [ih count i (by simpa using hi)]
          rw [nonempty_count_before_cons_succ]
          simp [h]

theorem load_traces_aux_filterMap :
    ∀ (traces : List (Option M)) (count : Nat),
      (load_traces_aux natural_domain_for_degree height count traces).filterMap
        (fun o => o.map (fun it => it.trace))
        = ((traces.filterMap id).filter (fun t => decide (0 < height t))).map
            (fun t => ⟨t, natural_domain_for_degree (height t)⟩) := by
  intro traces
  induction traces with
  | nil => intro count; rfl
  | cons o rest ih =>
    intro count
    cases o with
    | none =>
      rw [load_traces_aux]
      simpa using ih count
    | some t =>
      by_cases h : 0 < height t
      · rw [load_traces_aux]
        simp only [h, if_true]
        simp [h, List.filterMap_cons, List.filter_cons, ih (count + 1)]
      · rw [load_traces_aux]
        simp only [h, if_false]
        simp [h, List.filterMap_cons, List.filter_cons, ih count]

end C9Lemmas

end P3

namespace P3

section C9Main

variable {M D Com PData : Type}

theorem commit_stage_loaded (natural_domain_for_degree : Nat → D) (height : M → Nat)
    (commit : List (D × M) → Com × PData) (traces : List (Option M)) :
    commit_stage commit (load_traces natural_domain_for_degree height traces)
      = commit_traces commit
          (((traces.filterMap id).filter (fun t => decide (0 < height t))).map
            (fun t => ⟨t, natural_domain_for_degree (height t)⟩)) := by
  rw [commit_stage, load_traces, load_traces_aux_filterMap]

/-- C9: within one commitment round, `load_traces` assigns opening indices
0, 1, 2, ... to exactly the `Some` input traces of positive height, in input
order (the index of such a trace is the number of earlier non-empty traces);
every `None` or height-0 trace loads as `None`; and the commit stage returns
`(None, None)` exactly when no chip contributes a non-empty trace, otherwise
it commits all non-empty traces in one batch in input order. -/
theorem C9_load_and_commit_traces (natural_domain_for_degree : Nat → D)
    (height : M → Nat) (commit : List (D × M) → Com × PData)
    (traces : List (Option M)) (i : Nat) (hi : i < traces.length) :
    (load_traces natural_domain_for_degree height traces).length = traces.length
    ∧ ((load_traces natural_domain_for_degree height traces).getD i none = none
        ↔ traces.getD i none = none
          ∨ ∃ t, traces.getD i none = some t ∧ height t = 0)
    ∧ (∀ t, traces.getD i none = some t → 0 < height t →
        (load_traces natural_domain_for_degree height traces).getD i none
          = some ⟨⟨t, natural_domain_for_degree (height t)⟩,
              nonempty_count_before height traces i⟩)
    ∧ (commit_stage commit (load_traces natural_domain_for_degree height traces)
          = (none, none)
        ↔ (traces.filterMap id).filter (fun t => decide (0 < height t)) = [])
    ∧ ((traces.filterMap id).filter (fun t => decide (0 < height t)) ≠ [] →
        commit_stage commit (load_traces natural_domain_for_degree height traces)
          = (some (commit (((traces.filterMap id).filter (fun t =>
                decide (0 < height t))).map (fun t =>
                  (natural_domain_for_degree (height t), t)))).1,
             some (commit (((traces.filterMap id).filter (fun t =>
                decide (0 < height t))).map (fun t =>
                  (natural_domain_for_degree (height t), t)))).2)) := by
  refine ⟨load_traces_aux_length natural_domain_for_degree height traces 0, ?_, ?_, ?_, ?_⟩
  · rw [load_traces, load_traces_aux_getD natural_domain_for_degree height traces 0 i hi]
    rcases hrest : traces.getD i none with _ | t
    · simp
    · by_cases h : 0 < height t
      · simp only [h, if_true]
        constructor
        · intro hcontra
          cases hcontra
        · rintro (hcontra | ⟨t', ht', hh⟩)
          · cases hcontra
          · obtain rfl : t = t' := by injection ht'
            omega
      · simp only [h, if_false]
        constructor
        · intro _
          exact Or.inr ⟨t, rfl, by omega⟩
        · intro _
          trivial
  · intro t ht hpos
    rw [load_traces, load_traces_aux_getD natural_domain_for_degree height traces 0 i hi,
      ht]
    simp [hpos]
  · rw [commit_stage_loaded]
    rcases hfil : (traces.filterMap id).filter (fun t => decide (0 < height t)) with _ | ⟨t, rest⟩
    · simp [commit_traces]
    · simp [commit_traces]
  · intro hne
    rw [commit_stage_loaded]
    rcases hfil : (traces.filterMap id).filter (fun t => decide (0 < height t)) with _ | ⟨t, rest⟩
    · exact absurd hfil hne
    · rw [commit_traces]
      have hmap : ((t :: rest).map (fun t =>
          (⟨t, natural_domain_for_degree (height t)⟩ : Trace M D))).map
            (fun tr => (tr.domain, tr.value))
          = (t :: rest).map (fun t => (natural_domain_for_degree (height t), t)) := by
        rw [List.map_map]
        rfl
      simp only [hmap]
      simp

end C9Main

end P3

namespace P3

/-- Witness for C9: three slots — a height-1 trace, a missing trace and a
height-0 trace — loaded and committed with a concrete list-based PCS. -/
theorem C9_load_and_commit_traces_witness :
    (0 < ([some [4], none, some []] : List (Option (List Nat))).length)
    ∧ ((load_traces (fun n => n) List.length
          ([some [4], none, some []] : List (Option (List Nat)))).length
        = ([some [4], none, some []] : List (Option (List Nat))).length
      ∧ ((load_traces (fun n => n) List.length
            ([some [4], none, some []] : List (Option (List Nat)))).getD 0 none = none
          ↔ ([some [4], none, some []] : List (Option (List Nat))).getD 0 none = none
            ∨ ∃ t, ([some [4], none, some []] : List (Option (List Nat))).getD 0 none
                = some t ∧ t.length = 0)
      ∧ (∀ t : List Nat,
          ([some [4], none, some []] : List (Option (List Nat))).getD 0 none = some t →
          0 < t.length →
          (load_traces (fun n => n) List.length
              ([some [4], none, some []] : List (Option (List Nat)))).getD 0 none
            = some ⟨⟨t, t.length⟩,
                nonempty_count_before List.length
                  ([some [4], none, some []] : List (Option (List Nat))) 0⟩)
      ∧ (commit_stage (fun l => (l, l.length))
            (load_traces (fun n => n) List.length
              ([some [4], none, some []] : List (Option (List Nat))))
            = (none, none)
          ↔ ((([some [4], none, some []] : List (Option (List Nat))).filterMap id).filter
              (fun t => decide (0 < t.length))) = [])
      ∧ (((([some [4], none, some []] : List (Option (List Nat))).filterMap id).filter
            (fun t => decide (0 < t.length))) ≠ [] →
          commit_stage (fun l => (l, l.length))
              (load_traces (fun n => n) List.length
                ([some [4], none, some []] : List (Option (List Nat))))
            = (some (((((([some [4], none, some []] : List (Option (List Nat))).filterMap
                    id).filter (fun t => decide (0 < t.length))).map
                      (fun t => (t.length, t))), ((((([some [4], none, some []] :
                        List (Option (List Nat))).filterMap id).filter
                          (fun t => decide (0 < t.length))).map
                            (fun t => (t.length, t)))).length).1),
               some (((((([some [4], none, some []] : List (Option (List Nat))).filterMap
                    id).filter (fun t => decide (0 < t.length))).map
                      (fun t => (t.length, t))), ((((([some [4], none, some []] :
                        List (Option (List Nat))).filterMap id).filter
                          (fun t => decide (0 < t.length))).map
                            (fun t => (t.length, t)))).length).2)))) :=
  ⟨by decide,
   C9_load_and_commit_traces (fun n => n) List.length (fun l => (l, l.length))
     ([some [4], none, some []] : List (Option (List Nat))) 0 (by decide)⟩

end P3
